import Mathlib

set_option maxHeartbeats 2000000
set_option maxRecDepth 20000

/-!
Shallow embedding of `src/parse_plants.py` (nyc-plants-flashcards).

Strings are modelled as `List Char` (`Str`).  Python character classes are
modelled at the ASCII level used by the document and the script's regexes
(`[A-Z]`, `[a-z]`, `\d`, `\s`); `str.lower()` is modelled on ASCII letters.
The script's regular expressions are hand-compiled to deterministic matchers;
this is faithful because in each regex every repeated character class is
followed by a disjoint character class, so greedy maximal-munch matching
never needs to backtrack (justified branch by branch in comments below).
-/

abbrev Str := List Char

/-- Python `\s` / `str.strip()` whitespace (core ASCII whitespace). -/
def isSpaceB (c : Char) : Bool :=
  c = ' ' || c = '\t' || c = '\n' || c = '\r' || c = '\x0b' || c = '\x0c'

def isUpperB (c : Char) : Bool := 'A' ≤ c && c ≤ 'Z'

def isLowerB (c : Char) : Bool := 'a' ≤ c && c ≤ 'z'

def isDigitB (c : Char) : Bool := '0' ≤ c && c ≤ '9'

/-- Python `str.lower()` on the ASCII letters actually used by the script. -/
def lowerChar (c : Char) : Char :=
  if isUpperB c then Char.ofNat (c.toNat + 32) else c

def lowerL (s : Str) : Str := s.map lowerChar

/-- Strip characters satisfying `p` from both ends (Python `str.strip(...)`). -/
def stripWith (p : Char → Bool) (l : Str) : Str :=
  ((l.dropWhile p).reverse.dropWhile p).reverse

/-- Python `str.strip()` with no argument. -/
def pstrip (s : Str) : Str := stripWith isSpaceB s

/-- The character set of `clean_name`'s `strip(' .,;:')`. -/
def cleanSetB (c : Char) : Bool :=
  c = ' ' || c = '.' || c = ',' || c = ';' || c = ':'

/-- Greedy maximal munch of a character class: `(takeWhile, dropWhile)`. -/
def munch (p : Char → Bool) (s : Str) : Str × Str :=
  (s.takeWhile p, s.dropWhile p)

/-- Python `str.split()` with no argument: split on whitespace runs,
dropping empty pieces. -/
def splitWSAux : Str → Str → List Str
  | [], acc => if acc.isEmpty then [] else [acc.reverse]
  | c :: t, acc =>
    if isSpaceB c then
      if acc.isEmpty then splitWSAux t [] else acc.reverse :: splitWSAux t []
    else splitWSAux t (c :: acc)

def splitWS (s : Str) : List Str := splitWSAux s []

/-- Python `' '.join(words)`. -/
def joinSp : List Str → Str
  | [] => []
  | [w] => w
  | w :: rest => w ++ ' ' :: joinSp rest

/-- Python `' '.join(s.split())`: whitespace normalisation. -/
def normWS (s : Str) : Str := joinSp (splitWS s)

/-- First index `≥ i` (counting from the supplied offset) at which `pat`
occurs in the remaining text; `none` if it never occurs.
Models Python `str.find` (which returns `-1` for no occurrence). -/
def subFindAux (pat : Str) : Str → Nat → Option Nat
  | [], i => if pat.isEmpty then some i else none
  | c :: t, i =>
    if pat.isPrefixOf (c :: t) then some i else subFindAux pat t (i + 1)

def subFind (pat s : Str) : Option Nat := subFindAux pat s 0

/-- Python `s.find(pat, start)`. -/
def subFindFrom (pat s : Str) (start : Nat) : Option Nat :=
  (subFind pat (s.drop start)).map (· + start)

/-- Python `pat in s`. -/
def containsSub (pat s : Str) : Bool := (subFind pat s).isSome

/-- Python `s.split(sep)` for nonempty `sep` (all uses pass literal
nonempty separators); the fuel `s.length + 1` is never exhausted since
every step removes at least one character. -/
def splitOnSubAux (sep : Str) : Nat → Str → List Str
  | 0, s => [s]
  | fuel + 1, s =>
    match subFind sep s with
    | none => [s]
    | some i => s.take i :: splitOnSubAux sep fuel (s.drop (i + sep.length))

def splitOnSub (sep s : Str) : List Str :=
  if sep.isEmpty then [s] else splitOnSubAux sep (s.length + 1) s

/-- Python `s.replace(pat, '')` for nonempty `pat` (all uses remove a
literal label or the obelisk character). -/
def removeAllAux (pat : Str) : Nat → Str → Str
  | 0, s => s
  | fuel + 1, s =>
    match subFind pat s with
    | none => s
    | some i => s.take i ++ removeAllAux pat fuel (s.drop (i + pat.length))

def removeAll (pat s : Str) : Str :=
  if pat.isEmpty then s else removeAllAux pat (s.length + 1) s

/-- Python `s.split('\n')`. -/
def splitLines (s : Str) : List Str := splitOnSub ['\n'] s

/-! ### The entry-start regular expressions of `parse_plants` -/

/-- The full entry pattern of line 46:
`^([A-Z][a-z]+)\s+([a-z]+(?:\s+(?:var\.|ssp\.)\s+[a-z]+)?)\s*†?\s+([A-Z].*)$`,
returning the three capture groups (genus, species, common name).
Greedy maximal munch is backtrack-free here: each `+`/`*` class is followed
by a required character from a disjoint class, and if the optional
`var./ssp.` group matches, the skip-the-group alternative could not have
matched the tail anyway (the tail would have to accept a lowercase `v`/`s`
where it requires `†` or an uppercase letter). -/
def entryFull (line : Str) : Option (Str × Str × Str) :=
  match line with
  | [] => none
  | c :: rest =>
    if isUpperB c then
      let (ls, r1) := munch isLowerB rest
      if ls.isEmpty then none else
      let genus := c :: ls
      let (w1, r2) := munch isSpaceB r1
      if w1.isEmpty then none else
      let (sp1, r3) := munch isLowerB r2
      if sp1.isEmpty then none else
      let (species, r4) :=
        let (wv, rv) := munch isSpaceB r3
        if wv.isEmpty then (sp1, r3)
        else if ("var.".toList).isPrefixOf rv || ("ssp.".toList).isPrefixOf rv then
          let tag := rv.take 4
          let rv2 := rv.drop 4
          let (wv2, rv3) := munch isSpaceB rv2
          if wv2.isEmpty then (sp1, r3)
          else
            let (sp2, rv4) := munch isLowerB rv3
            if sp2.isEmpty then (sp1, r3)
            else (sp1 ++ wv ++ tag ++ wv2 ++ sp2, rv4)
        else (sp1, r3)
      let (w3, r5) := munch isSpaceB r4
      match r5 with
      | [] => none
      | d :: r6 =>
        if d = '†' then
          let (w4, r7) := munch isSpaceB r6
          if w4.isEmpty then none
          else match r7 with
            | [] => none
            | e :: r8 => if isUpperB e then some (genus, species, e :: r8) else none
        else if w3.isEmpty then none
        else if isUpperB d then some (genus, species, d :: r6) else none
    else none

/-- The next-entry lookahead pattern of lines 121 and 139:
`re.match(r'^[A-Z][a-z]+\s+[a-z]+\s+[A-Z]', line)` (a prefix match). -/
def entryShape (s : Str) : Bool :=
  match s with
  | [] => false
  | c :: rest =>
    isUpperB c &&
      (let (l1, r1) := munch isLowerB rest
       !l1.isEmpty &&
         (let (s1, r2) := munch isSpaceB r1
          !s1.isEmpty &&
            (let (l2, r3) := munch isLowerB r2
             !l2.isEmpty &&
               (let (s2, r4) := munch isSpaceB r3
                !s2.isEmpty &&
                  (match r4 with
                   | d :: _ => isUpperB d
                   | [] => false)))))

/-- Case-insensitive literal-prefix test (for the IGNORECASE regex). -/
def startsCI (w s : Str) : Bool := lowerL (s.take w.length) = w

def regWords : List Str := ["prohibited", "regulated", "invasive"].map String.toList

/-- Does the IGNORECASE pattern `\s+(Prohibited|Regulated|Invasive)` match at
the head of `s`?  `\s+` must end exactly at the word (the words start with a
letter, so consuming less than the whole whitespace run cannot match). -/
def regCutHere (s : Str) : Bool :=
  match s with
  | [] => false
  | c :: _ =>
    isSpaceB c && regWords.any (fun w => startsCI w (s.dropWhile isSpaceB))

/-- Leftmost index where `\s+(Prohibited|Regulated|Invasive)` matches. -/
def findRegCut : Str → Nat → Option Nat
  | [], _ => none
  | c :: t, i =>
    if regCutHere (c :: t) then some i else findRegCut t (i + 1)

/-- Line 58: `re.sub(r'\s+(Prohibited|Regulated|Invasive).*$', '', common,
flags=re.IGNORECASE)` — the match always extends to the end of the string,
so the substitution deletes everything from the leftmost match on. -/
def stripReg (s : Str) : Str :=
  match findRegCut s 0 with
  | some i => s.take i
  | none => s

/-- Does `\s*Coefficient\s+of\s+\d+` match at the head of `s`? -/
def coefHere (s : Str) : Bool :=
  let r := s.dropWhile isSpaceB
  if ("Coefficient".toList).isPrefixOf r then
    let r1 := r.drop 11
    let (u1, r2) := munch isSpaceB r1
    !u1.isEmpty &&
      (("of".toList).isPrefixOf r2 &&
        (let r3 := r2.drop 2
         let (u2, r4) := munch isSpaceB r3
         !u2.isEmpty &&
           (match r4 with
            | d :: _ => isDigitB d
            | [] => false)))
  else false

def findCoefCut : Str → Nat → Option Nat
  | [], _ => none
  | c :: t, i =>
    if coefHere (c :: t) then some i else findCoefCut t (i + 1)

/-- Line 105: `re.sub(r'\s*Coefficient\s+of\s+\d+.*$', '', habitat_text)`. -/
def stripCoef (s : Str) : Str :=
  match findCoefCut s 0 with
  | some i => s.take i
  | none => s

/-! ### Plant records and the field harvester -/

/-- The dict built at lines 86–96 of `parse_plants.py` (plus the `category`
key that `main` adds later; it starts empty). -/
structure Plant where
  scientific_name : Str
  common_name : Str
  habitat : Str
  form_color : Str
  ecosystem_services : Str
  horticultural_value : Str
  other_info : Str
  exposure : Str
  soil_moisture : Str
  category : Str
deriving DecidableEq

def habitatLabel : Str := "Habitat:".toList

def exposureLabel : Str := "Exposure:".toList

def ecoWord : Str := "Ecosystem".toList

def fcLabel : Str := "Form/Color:".toList

def esLabel : Str := "Ecosystem Services:".toList

def svcLabel : Str := "Services:".toList

def hortWord : Str := "Horticultural".toList

def valLabel : Str := "Value:".toList

def otherLabel : Str := "Other:".toList

def dashesLabel : Str := "---".toList

def pageLabel : Str := "Page |".toList

/-- The sentinel prefixes of the Form/Color continuation loop (line 120). -/
def fcSentinels : List Str :=
  [otherLabel, dashesLabel, habitatLabel, pageLabel]

/-- The Form/Color continuation loop (lines 116–126): append up to 3
following stripped lines, stopping at an empty line, a sentinel prefix, or
a line matching the next-entry shape. -/
def fcContAux (lines : List Str) (bound : Nat) : Nat → Nat → Str → Str
  | 0, _, ft => ft
  | fuel + 1, k, ft =>
    if k < bound then
      let cont := pstrip (lines.getD k [])
      if !cont.isEmpty && !(fcSentinels.any (fun x => x.isPrefixOf cont)) then
        if entryShape cont then ft
        else fcContAux lines bound fuel (k + 1) (ft ++ ' ' :: cont)
      else ft
    else ft

def fcCont (lines : List Str) (j : Nat) (ft : Str) : Str :=
  fcContAux lines (min (j + 4) lines.length) 3 (j + 1) ft

/-- One iteration of the lookahead body (lines 103–136): the `elif` chain
that harvests labeled fields from the stripped line `nl` at index `j`. -/
def applyFields (lines : List Str) (j : Nat) (nl : Str) (p : Plant) : Plant :=
  if habitatLabel.isPrefixOf nl then
    { p with habitat := stripCoef (pstrip (removeAll habitatLabel nl)) }
  else if containsSub exposureLabel nl then
    let parts := splitOnSub exposureLabel nl
    -- `len(parts) > 1` holds whenever `'Exposure:' in next_line`
    { p with exposure := pstrip ((splitOnSub ecoWord (parts.getD 1 [])).getD 0 []) }
  else if containsSub fcLabel nl then
    let ft := pstrip ((splitOnSub fcLabel nl).getLastD [])
    { p with form_color := fcCont lines j ft }
  else if containsSub esLabel nl then
    { p with ecosystem_services := pstrip ((splitOnSub svcLabel nl).getLastD []) }
  else if containsSub hortWord nl && containsSub valLabel nl then
    { p with horticultural_value := pstrip ((splitOnSub valLabel nl).getLastD []) }
  else if otherLabel.isPrefixOf nl then
    { p with other_info := pstrip (removeAll otherLabel nl) }
  else p

/-- The lookahead loop (lines 98–142): `j` runs from `i+1` while
`j < min(i+60, len(lines))`; the `elif` chain runs on every line, and then
the loop breaks when `j > i + 3` and the line matches the next-entry shape.
The loop performs at most 59 iterations, so fuel 60 is never exhausted. -/
def harvestAux (lines : List Str) (i : Nat) : Nat → Nat → Plant → Plant
  | 0, _, p => p
  | fuel + 1, j, p =>
    if j < min (i + 60) lines.length then
      let nl := pstrip (lines.getD j [])
      let p1 := applyFields lines j nl p
      if j > i + 3 && entryShape nl then p1
      else harvestAux lines i fuel (j + 1) p1
    else p

def harvest (lines : List Str) (i : Nat) (p : Plant) : Plant :=
  harvestAux lines i 60 (i + 1) p

/-! ### The entry segmenter -/

def skipTerms : List Str :=
  ["ferns", "forbs", "graminoids", "shrubs", "trees", "vines"].map String.toList

def headerArtifacts : List Str :=
  ["common name", "common names", "valued characteristics"].map String.toList

/-- Python `genus[0].isupper()` (the regex guarantees nonemptiness, so the
`[]` branch is unreachable from `acceptAt`). -/
def headIsUpper (s : Str) : Bool :=
  match s with
  | c :: _ => isUpperB c
  | [] => false

def headIsLower (s : Str) : Bool :=
  match s with
  | c :: _ => isLowerB c
  | [] => false

def dagger : Str := ['†']

/-- Lines 36–80: strip the line, skip page markers/blank lines, match the
entry regex and run all validations.  Returns the accepted
(genus, species, cleaned common name) or `none`.  This is independent of
the running `seen` set, which is consulted separately (line 83). -/
def acceptAt (lines : List Str) (i : Nat) : Option (Str × Str × Str) :=
  let line := pstrip (lines.getD i [])
  if line.isEmpty || dashesLabel.isPrefixOf line || pageLabel.isPrefixOf line then
    none
  else
    match entryFull line with
    | none => none
    | some (g0, sp0, c0) =>
      let genus := pstrip g0
      let species := pstrip (removeAll dagger (pstrip sp0))
      let common0 := pstrip (removeAll dagger (pstrip c0))
      let common := normWS (stripReg common0)
      if common.length < 3 then none
      else if lowerL genus ∈ skipTerms then none
      else if !(headIsUpper genus && headIsLower species) then none
      else if lowerL common ∈ headerArtifacts then none
      else some (genus, species, common)

/-- The dict literal of lines 86–96. -/
def mkPlant (g sp com : Str) : Plant :=
  { scientific_name := g ++ ' ' :: sp
    common_name := com
    habitat := []
    form_color := []
    ecosystem_services := []
    horticultural_value := []
    other_info := []
    exposure := []
    soil_moisture := []
    category := [] }

/-- The raw dedup key of line 82: `scientific.lower()`. -/
def rawKeyAt (lines : List Str) (i : Nat) : Option Str :=
  (acceptAt lines i).map (fun t => lowerL (t.1 ++ ' ' :: t.2.1))

/-- The plant record built (and harvested) for an accepted candidate. -/
def buildAt (lines : List Str) (i : Nat) : Option Plant :=
  (acceptAt lines i).map (fun t => harvest lines i (mkPlant t.1 t.2.1 t.2.2))

/-- The outer while-loop of lines 34–146: every line is visited (the index
always advances by exactly 1), candidates are segmented, validated,
checked against `seen`, harvested and appended. -/
def parseAux (lines : List Str) : Nat → Nat → List Plant → List Str → List Plant
  | 0, _, acc, _ => acc
  | fuel + 1, i, acc, seen =>
    if i < lines.length then
      match acceptAt lines i with
      | none => parseAux lines fuel (i + 1) acc seen
      | some (g, sp, com) =>
        let key := lowerL (g ++ ' ' :: sp)
        if key ∈ seen then parseAux lines fuel (i + 1) acc seen
        else
          parseAux lines fuel (i + 1)
            (acc ++ [harvest lines i (mkPlant g sp com)]) (key :: seen)
    else acc

/-! ### The section locator (lines 15–28) -/

def pageMarker : Str := "Page | 98".toList

def fernsHeader : Str := "Ferns\nFerns add texture".toList

def glossaryTok : Str := "Glossary".toList

/-- Lines 16–21: the section start — the first occurrence of the page
marker, else the first occurrence of the section header, else offset 0. -/
def sectionStart (content : Str) : Nat :=
  match subFind pageMarker content with
  | some i => i
  | none =>
    match subFind fernsHeader content with
    | some i => i
    | none => 0

/-- Lines 23–26: the section end — the first `Glossary` at or after the
start, else the end of the document. -/
def sectionStop (content : Str) (start : Nat) : Nat :=
  match subFindFrom glossaryTok content start with
  | some i => i
  | none => content.length

/-- Lines 15–28: find the section boundaries and return that slice. -/
def locateSection (content : Str) : Str :=
  (content.drop (sectionStart content)).take
    (sectionStop content (sectionStart content) - sectionStart content)

/-- Function `parse_plants` (lines 10–148), taking the document text in place of the
file path (the file read is the driving script's I/O concern). -/
def parse_plants (content : Str) : List Plant :=
  let lines := splitLines (locateSection content)
  parseAux lines lines.length 0 [] []

/-! ### The categorizer (lines 151–200) -/

def fern_genera : List Str :=
  (["Adiantum", "Asplenium", "Athyrium", "Dennstaedtia", "Deparia",
    "Dryopteris", "Matteuccia", "Onoclea", "Osmunda", "Osmundastrum",
    "Polypodium", "Polystichum", "Pteridium", "Thelypteris", "Woodwardia"]
    : List String).map String.toList

def graminoid_genera : List Str :=
  (["Ammophila", "Andropogon", "Aristida", "Agrostis", "Avenella",
    "Bolboschoenus", "Calamagrostis", "Carex", "Cenchrus", "Chasmanthium",
    "Cinna", "Cyperus", "Danthonia", "Dichanthelium", "Distichlis",
    "Eleocharis", "Elymus", "Eragrostis", "Eriophorum", "Festuca",
    "Glyceria", "Juncus", "Koeleria", "Leersia", "Muhlenbergia",
    "Panicum", "Phalaris", "Piptochaetium", "Poa", "Rhynchospora",
    "Schizachyrium", "Schoenoplectus", "Scirpus", "Sorghastrum",
    "Spartina", "Sporobolus", "Tridens", "Tripsacum", "Typha", "Zizania"]
    : List String).map String.toList

def shrub_genera : List Str :=
  (["Aronia", "Arctostaphylos", "Baccharis", "Calycanthus", "Ceanothus",
    "Cephalanthus", "Clethra", "Comptonia", "Cornus", "Crataegus",
    "Diervilla", "Epigaea", "Eubotrys", "Euonymus", "Gaultheria",
    "Gaylussacia", "Hamamelis", "Hudsonia", "Hydrangea", "Ilex",
    "Itea", "Kalmia", "Leucothoe", "Lindera", "Lyonia", "Morella",
    "Myrica", "Photinia", "Physocarpus", "Prunus", "Rhododendron",
    "Rhus", "Ribes", "Rosa", "Rubus", "Sambucus", "Spiraea",
    "Staphylea", "Symphoricarpos", "Vaccinium", "Viburnum", "Xanthorhiza"]
    : List String).map String.toList

def tree_genera : List Str :=
  (["Abies", "Acer", "Aesculus", "Amelanchier", "Asimina", "Betula", "Carpinus",
    "Carya", "Castanea", "Catalpa", "Celtis", "Cercis", "Chionanthus",
    "Cladrastis", "Diospyros", "Fagus", "Fraxinus", "Gleditsia",
    "Gymnocladus", "Halesia", "Juglans", "Juniperus", "Larix",
    "Liquidambar", "Liriodendron", "Magnolia", "Morus", "Nyssa",
    "Ostrya", "Oxydendrum", "Picea", "Pinus", "Platanus", "Populus", "Quercus",
    "Salix", "Sassafras", "Taxodium", "Thuja", "Tilia", "Tsuga", "Ulmus"]
    : List String).map String.toList

def vine_genera : List Str :=
  (["Apios", "Bignonia", "Campsis", "Celastrus", "Clematis", "Lonicera",
    "Menispermum", "Parthenocissus", "Smilax", "Strophostyles", "Vitis",
    "Wisteria"] : List String).map String.toList

def fernStr : Str := "Fern".toList

def graminoidStr : Str := "Graminoid".toList

def shrubStr : Str := "Shrub".toList

def treeStr : Str := "Tree".toList

def vineStr : Str := "Vine".toList

def forbStr : Str := "Forb".toList

def categoryLabels : List Str :=
  [fernStr, graminoidStr, shrubStr, treeStr, vineStr, forbStr]

/-- The genus → category if-chain (lines 187–200). -/
def categorizeGenus (genus : Str) : Str :=
  if genus ∈ fern_genera then fernStr
  else if genus ∈ graminoid_genera then graminoidStr
  else if genus ∈ shrub_genera then shrubStr
  else if genus ∈ tree_genera then treeStr
  else if genus ∈ vine_genera then vineStr
  else forbStr

/-- Function `categorize_plant` (lines 151–200).  Python evaluates
`scientific_name.split()[0]`, which raises `IndexError` when the split is
empty; that fallible indexing is modelled by `Option`. -/
def categorize_plant (scientific_name : Str) : Option Str :=
  match splitWS scientific_name with
  | [] => none
  | g :: _ => some (categorizeGenus g)

/-! ### `clean_name` and the body of `main` (lines 203–235) -/

/-- Function `clean_name` (lines 203–207). -/
def clean_name (name : Str) : Str :=
  stripWith cleanSetB (normWS name)

/-- The per-plant cleanup of lines 218–221: clean both names, then derive
the category from the cleaned scientific name. -/
def enrich (p : Plant) : Option Plant :=
  let sci := clean_name p.scientific_name
  let com := clean_name p.common_name
  (categorize_plant sci).map fun cat =>
    { p with scientific_name := sci, common_name := com, category := cat }

/-- The enrichment loop over all plants; `none` as soon as any single
`categorize_plant` call would raise. -/
def enrichAll : List Plant → Option (List Plant)
  | [] => some []
  | p :: ps =>
    match enrich p, enrichAll ps with
    | some q, some qs => some (q :: qs)
    | _, _ => none

/-- Insert into the insertion-ordered dict of lines 224–232: a new key is
appended; an existing key keeps its position and keeps the stored record
unless the incoming record's habitat is strictly longer. -/
def dedupUpd (key : Str) (p : Plant) : List (Str × Plant) → List (Str × Plant)
  | [] => [(key, p)]
  | (k0, p0) :: rest =>
    if k0 = key then
      (if p.habitat.length > p0.habitat.length then (k0, p) else (k0, p0)) :: rest
    else (k0, p0) :: dedupUpd key p rest

/-- The dedup dict build of lines 223–232 (`unique_plants`). -/
def dedupAll (ps : List Plant) : List (Str × Plant) :=
  ps.foldl (fun m p => dedupUpd (lowerL p.scientific_name) p m) []

/-- Python `str <=` : code-point lexicographic comparison. -/
def lexLe : Str → Str → Bool
  | [], _ => true
  | _ :: _, [] => false
  | x :: xs, y :: ys => if x = y then lexLe xs ys else decide (x < y)

def plantLe (p q : Plant) : Prop :=
  lexLe p.scientific_name q.scientific_name = true

instance : DecidableRel plantLe := fun p q => by
  unfold plantLe; infer_instance

/-- Line 235, `plants.sort(key=lambda x: x['scientific_name'])`: Python's
sort is stable, and every stable sort under a total preorder computes the
same list, so insertion sort (which is stable) is a faithful model. -/
def sortPlants (l : List Plant) : List Plant :=
  List.insertionSort plantLe l

/-- The pure core of `main` (lines 210–235): parse, clean and categorize,
deduplicate by lowercased cleaned scientific name, sort.  The result is
`none` exactly when some `categorize_plant` call would raise. -/
def main_pipeline (content : Str) : Option (List Plant) :=
  match enrichAll (parse_plants content) with
  | none => none
  | some qs => some (sortPlants ((dedupAll qs).map (·.2)))

/-- The final record list of one run (the `plants` list serialized at line
240); defaults to `[]` on the unreachable error case. -/
def mainOut (content : Str) : List Plant :=
  (main_pipeline content).getD []

/-- Two complete runs of the extractor on the same document. -/
def runTwice (content : Str) : List Plant × List Plant :=
  (mainOut content, mainOut content)

/-! ### Specification-side definitions used by the theorems -/

/-- Consecutive indices `s, s+1, ..., s+n-1`. -/
def idxFrom : Nat → Nat → List Nat
  | _, 0 => []
  | s, n + 1 => s :: idxFrom (s + 1) n

/-- The raw dedup keys contributed by the first `n` lines: this is the
contents of the `seen` set after the outer loop has processed them. -/
def seenUpTo (lines : List Str) (n : Nat) : List Str :=
  (idxFrom 0 n).filterMap (rawKeyAt lines)

/-- The record appended (if any) while the outer loop visits line `i`:
the accepted candidate, harvested, provided its raw key is new. -/
def emitAt (lines : List Str) (i : Nat) : Option Plant :=
  match acceptAt lines i with
  | none => none
  | some (g, sp, com) =>
    if lowerL (g ++ ' ' :: sp) ∈ seenUpTo lines i then none
    else some (harvest lines i (mkPlant g sp com))

/-- Occurrence of `pat` in `s` starting at character offset `i`. -/
def occursAtP (pat s : Str) (i : Nat) : Prop :=
  ∃ pre post, pre.length = i ∧ s = pre ++ (pat ++ post)

/-- Index `i` is the first occurrence of `pat` in `s`. -/
def leastOcc (pat s : Str) (i : Nat) : Prop :=
  occursAtP pat s i ∧ ∀ i', i' < i → ¬ occursAtP pat s i'

/-- Pattern `pat` does not occur in `s` at all. -/
def noOcc (pat s : Str) : Prop :=
  ∀ i, ¬ occursAtP pat s i

instance : IsTotal Plant plantLe := by
  constructor
  intro a b
  unfold plantLe
  generalize a.scientific_name = x
  generalize b.scientific_name = y
  induction x generalizing y with
  | nil => left; rfl
  | cons c cs ih =>
    cases y with
    | nil => right; rfl
    | cons d ds =>
      by_cases h : c = d
      · subst h
        rcases ih ds with h1 | h1
        · left; simpa [lexLe] using h1
        · right; simpa [lexLe] using h1
      · rcases lt_or_gt_of_ne h with hlt | hgt
        · left; simp [lexLe, h, hlt]
        · right; simp [lexLe, Ne.symm h, hgt]

instance : IsTrans Plant plantLe := by
  constructor
  intro a b c
  unfold plantLe
  generalize a.scientific_name = x
  generalize b.scientific_name = y
  generalize c.scientific_name = z
  induction x generalizing y z with
  | nil => intro _ _; rfl
  | cons u us ih =>
    cases y with
    | nil => intro h; simp [lexLe] at h
    | cons v vs =>
      cases z with
      | nil => intro _ h; simp [lexLe] at h
      | cons w ws =>
        intro h1 h2
        by_cases huv : u = v
        · subst huv
          rw [lexLe, if_pos rfl] at h1
          by_cases huw : u = w
          · subst huw
            rw [lexLe, if_pos rfl] at h2 ⊢
            exact ih vs ws h1 h2
          · rw [lexLe, if_neg huw] at h2 ⊢
            exact h2
        · rw [lexLe, if_neg huv] at h1
          by_cases hvw : v = w
          · subst hvw
            rw [lexLe, if_neg huv]
            exact h1
          · rw [lexLe, if_neg hvw] at h2
            have hlt : u < w := lt_trans (of_decide_eq_true h1) (of_decide_eq_true h2)
            rw [lexLe, if_neg (ne_of_lt hlt)]
            exact decide_eq_true hlt

/-! ### Concrete documents used by counterexamples and witnesses -/

/-- Example document from the specification (section 8). -/
def specDoc : Str :=
  "Adiantum pedatum Northern maidenhair fern\nHabitat: Moist woods\nExposure: Shade".toList

/-- The record the specification's example is expected to produce. -/
def specRecord : Plant :=
  { scientific_name := "Adiantum pedatum".toList
    common_name := "Northern maidenhair fern".toList
    habitat := "Moist woods".toList
    form_color := []
    ecosystem_services := []
    horticultural_value := []
    other_info := []
    exposure := "Shade".toList
    soil_moisture := []
    category := "Fern".toList }

/-- A document with two candidate entries sharing the same scientific name:
the first carries a 12-character habitat, the second (4 lines later, so the
first's lookahead stops at it) a 30-character habitat. -/
def c1doc : Str :=
  ("Aaaa bbbb First Plant\nHabitat: TWELVECHARS!\nx\nx\n" ++
   "Aaaa bbbb First Plant\nHabitat: ABCDEFGHIJKLMNOPQRSTUVWXYZ1234").toList

def c1lines : List Str := splitLines (locateSection c1doc)

def c1key : Str := lowerL "Aaaa bbbb".toList

/-- The record built (pre-enrichment) for the first candidate of `c1doc`. -/
def c1raw : Plant :=
  { scientific_name := "Aaaa bbbb".toList
    common_name := "First Plant".toList
    habitat := "TWELVECHARS!".toList
    form_color := []
    ecosystem_services := []
    horticultural_value := []
    other_info := []
    exposure := []
    soil_moisture := []
    category := [] }

/-- A document where candidate B's entry-start line immediately follows
candidate A (within 3 lines), so A's lookahead does not stop at B. -/
def c2doc : Str :=
  "Aaaa bbbb Plant One\nCccc dddd Plant Two\nHabitat: BELONGSTOB".toList

def c2lines : List Str := splitLines (locateSection c2doc)

/-- Witness lines for the amended harvest-stop property: candidate A at
index 0, the next entry-shaped line at index 5 (more than 3 lines later). -/
def c2wlines : List Str :=
  ["Aaaa bbbb Plant One".toList, "x".toList, "x".toList, "x".toList,
   "x".toList, "Cccc dddd Plant Two".toList, "Habitat: AFTERB".toList]

/-! ### Basic lemmas -/

theorem applyFields_stable (lines : List Str) (j : Nat) (nl : Str) (p : Plant) :
    (applyFields lines j nl p).scientific_name = p.scientific_name ∧
    (applyFields lines j nl p).common_name = p.common_name ∧
    (applyFields lines j nl p).category = p.category ∧
    (applyFields lines j nl p).soil_moisture = p.soil_moisture := by
  unfold applyFields
  split_ifs <;> exact ⟨rfl, rfl, rfl, rfl⟩

theorem harvestAux_stable (lines : List Str) (i : Nat) :
    ∀ (fuel j : Nat) (p : Plant),
      (harvestAux lines i fuel j p).scientific_name = p.scientific_name ∧
      (harvestAux lines i fuel j p).common_name = p.common_name ∧
      (harvestAux lines i fuel j p).category = p.category ∧
      (harvestAux lines i fuel j p).soil_moisture = p.soil_moisture := by
  intro fuel
  induction fuel with
  | zero => intro j p; exact ⟨rfl, rfl, rfl, rfl⟩
  | succ fuel ih =>
    intro j p
    rw [harvestAux]
    by_cases hj : j < min (i + 60) lines.length
    · rw [if_pos hj]
      by_cases hb : (decide (j > i + 3) && entryShape (pstrip (lines.getD j []))) = true
      · rw [if_pos hb]
        exact applyFields_stable lines j _ p
      · rw [if_neg hb]
        rcases ih (j + 1) (applyFields lines j (pstrip (lines.getD j [])) p) with
          ⟨h1, h2, h3, h4⟩
        rcases applyFields_stable lines j (pstrip (lines.getD j [])) p with
          ⟨g1, g2, g3, g4⟩
        exact ⟨h1.trans g1, h2.trans g2, h3.trans g3, h4.trans g4⟩
    · rw [if_neg hj]
      exact ⟨rfl, rfl, rfl, rfl⟩

theorem harvest_stable (lines : List Str) (i : Nat) (p : Plant) :
    (harvest lines i p).scientific_name = p.scientific_name ∧
    (harvest lines i p).common_name = p.common_name ∧
    (harvest lines i p).category = p.category ∧
    (harvest lines i p).soil_moisture = p.soil_moisture :=
  harvestAux_stable lines i 60 (i + 1) p

theorem idxFrom_snoc (s n : Nat) : idxFrom s (n + 1) = idxFrom s n ++ [s + n] := by
  induction n generalizing s with
  | zero => rfl
  | succ n ih =>
    rw [idxFrom, ih (s + 1), idxFrom]
    rw [List.cons_append]
    have : s + 1 + n = s + (n + 1) := by omega
    rw [this]

theorem mem_idxFrom {j s n : Nat} : j ∈ idxFrom s n ↔ s ≤ j ∧ j < s + n := by
  induction n generalizing s with
  | zero =>
    rw [idxFrom]
    simp only [List.not_mem_nil, false_iff]
    omega
  | succ n ih =>
    rw [idxFrom]
    rw [List.mem_cons, ih]
    omega

theorem seenUpTo_succ (lines : List Str) (n : Nat) :
    seenUpTo lines (n + 1) = seenUpTo lines n ++ (rawKeyAt lines n).toList := by
  unfold seenUpTo
  rw [idxFrom_snoc, List.filterMap_append]
  have : (0 : Nat) + n = n := by omega
  rw [this]
  cases h : rawKeyAt lines n <;> simp [List.filterMap_cons, h]

theorem mem_seenUpTo {lines : List Str} {k : Str} {n : Nat} :
    k ∈ seenUpTo lines n ↔ ∃ j, j < n ∧ rawKeyAt lines j = some k := by
  unfold seenUpTo
  simp only [List.mem_filterMap, mem_idxFrom]
  constructor
  · rintro ⟨j, ⟨_, hj⟩, hk⟩
    exact ⟨j, by omega, hk⟩
  · rintro ⟨j, hj, hk⟩
    exact ⟨j, ⟨Nat.zero_le j, by omega⟩, hk⟩

theorem parseAux_characterization (lines : List Str) :
    ∀ (fuel i : Nat) (acc : List Plant) (seen : List Str),
      lines.length ≤ i + fuel →
      (∀ k, k ∈ seen ↔ k ∈ seenUpTo lines i) →
      parseAux lines fuel i acc seen =
        acc ++ (idxFrom i (lines.length - i)).filterMap (emitAt lines) := by
  intro fuel
  induction fuel with
  | zero =>
    intro i acc seen hlen _
    have h0 : lines.length - i = 0 := by omega
    rw [h0, idxFrom, List.filterMap_nil, List.append_nil]
    rfl
  | succ fuel ih =>
    intro i acc seen hlen hseen
    by_cases hi : i < lines.length
    · have hn : lines.length - i = (lines.length - (i + 1)) + 1 := by omega
      rw [hn, idxFrom, List.filterMap_cons]
      cases ha : acceptAt lines i with
      | none =>
        have step : parseAux lines (fuel + 1) i acc seen =
            parseAux lines fuel (i + 1) acc seen := by
          rw [parseAux, if_pos hi, ha]
        have hemit : emitAt lines i = none := by rw [emitAt, ha]
        have hraw : rawKeyAt lines i = none := by rw [rawKeyAt, ha]; rfl
        rw [step, hemit]
        have hseen2 : ∀ k, k ∈ seen ↔ k ∈ seenUpTo lines (i + 1) := by
          intro k
          rw [seenUpTo_succ, hraw]
          simpa using hseen k
        exact ih (i + 1) acc seen (by omega) hseen2
      | some t =>
        obtain ⟨g, sp, com⟩ := t
        have step : parseAux lines (fuel + 1) i acc seen =
            (if lowerL (g ++ ' ' :: sp) ∈ seen then
              parseAux lines fuel (i + 1) acc seen
            else
              parseAux lines fuel (i + 1)
                (acc ++ [harvest lines i (mkPlant g sp com)])
                (lowerL (g ++ ' ' :: sp) :: seen)) := by
          rw [parseAux, if_pos hi, ha]
        have hraw : rawKeyAt lines i = some (lowerL (g ++ ' ' :: sp)) := by
          rw [rawKeyAt, ha]; rfl
        rw [step]
        by_cases hk : lowerL (g ++ ' ' :: sp) ∈ seen
        · rw [if_pos hk]
          have hkU : lowerL (g ++ ' ' :: sp) ∈ seenUpTo lines i := (hseen _).1 hk
          have hemit : emitAt lines i = none := by
            rw [emitAt, ha]
            simp only [if_pos hkU]
          rw [hemit]
          have hseen2 : ∀ k, k ∈ seen ↔ k ∈ seenUpTo lines (i + 1) := by
            intro k
            rw [seenUpTo_succ, hraw]
            simp only [Option.toList_some, List.mem_append, List.mem_singleton,
              List.not_mem_nil, or_false]
            constructor
            · intro h
              exact Or.inl ((hseen k).1 h)
            · rintro (h | h)
              · exact (hseen k).2 h
              · rw [h]
                exact hk
          exact ih (i + 1) acc seen (by omega) hseen2
        · rw [if_neg hk]
          have hkU : lowerL (g ++ ' ' :: sp) ∉ seenUpTo lines i :=
            fun h => hk ((hseen _).2 h)
          have hemit : emitAt lines i = some (harvest lines i (mkPlant g sp com)) := by
            rw [emitAt, ha]
            simp only [if_neg hkU]
          rw [hemit]
          have hseen2 : ∀ k,
              k ∈ lowerL (g ++ ' ' :: sp) :: seen ↔ k ∈ seenUpTo lines (i + 1) := by
            intro k
            rw [seenUpTo_succ, hraw]
            simp only [Option.toList_some, List.mem_append, List.mem_singleton,
              List.mem_cons, List.not_mem_nil, or_false]
            constructor
            · rintro (h | h)
              · exact Or.inr h
              · exact Or.inl ((hseen k).1 h)
            · rintro (h | h)
              · exact Or.inr ((hseen k).2 h)
              · exact Or.inl h
          rw [ih (i + 1) (acc ++ [harvest lines i (mkPlant g sp com)])
            (lowerL (g ++ ' ' :: sp) :: seen) (by omega) hseen2]
          rw [List.append_assoc, List.singleton_append]
    · have step : parseAux lines (fuel + 1) i acc seen = acc := by
        rw [parseAux, if_neg hi]
      have h0 : lines.length - i = 0 := by omega
      rw [step, h0, idxFrom, List.filterMap_nil, List.append_nil]

theorem parse_plants_characterization (content : Str) :
    parse_plants content =
      (idxFrom 0 (splitLines (locateSection content)).length).filterMap
        (emitAt (splitLines (locateSection content))) := by
  unfold parse_plants
  have hseen0 : ∀ k : Str,
      k ∈ ([] : List Str) ↔ k ∈ seenUpTo (splitLines (locateSection c1doc)) 0 := by
    intro k
    rfl
  rw [parseAux_characterization (splitLines (locateSection content))
    (splitLines (locateSection content)).length 0 [] []
    (by omega) (by intro k; rfl)]
  rw [List.nil_append]
  have : (splitLines (locateSection content)).length - 0 =
      (splitLines (locateSection content)).length := by omega
  rw [this]

theorem mem_parse_plants {content : Str} {p : Plant} :
    p ∈ parse_plants content ↔
      ∃ i, i < (splitLines (locateSection content)).length ∧
        emitAt (splitLines (locateSection content)) i = some p := by
  rw [parse_plants_characterization]
  simp only [List.mem_filterMap, mem_idxFrom]
  constructor
  · rintro ⟨i, ⟨_, hi⟩, he⟩
    exact ⟨i, by omega, he⟩
  · rintro ⟨i, hi, he⟩
    exact ⟨i, ⟨Nat.zero_le i, by omega⟩, he⟩

theorem emitAt_some_elim {lines : List Str} {i : Nat} {p : Plant}
    (h : emitAt lines i = some p) :
    ∃ g sp com, acceptAt lines i = some (g, sp, com) ∧
      rawKeyAt lines i = some (lowerL (g ++ ' ' :: sp)) ∧
      lowerL (g ++ ' ' :: sp) ∉ seenUpTo lines i ∧
      p = harvest lines i (mkPlant g sp com) := by
  unfold emitAt at h
  cases ha : acceptAt lines i with
  | none =>
    rw [ha] at h
    exact absurd h (by simp)
  | some t =>
    obtain ⟨g, sp, com⟩ := t
    rw [ha] at h
    replace h : (if lowerL (g ++ ' ' :: sp) ∈ seenUpTo lines i then none
        else some (harvest lines i (mkPlant g sp com))) = some p := h
    by_cases hk : lowerL (g ++ ' ' :: sp) ∈ seenUpTo lines i
    · rw [if_pos hk] at h
      exact absurd h (by simp)
    · rw [if_neg hk] at h
      refine ⟨g, sp, com, rfl, ?_, hk, ?_⟩
      · rw [rawKeyAt, ha]
        rfl
      · exact (Option.some_injective _ h).symm

theorem acceptAt_headUpper {lines : List Str} {i : Nat} {g sp com : Str}
    (h : acceptAt lines i = some (g, sp, com)) : headIsUpper g = true := by
  unfold acceptAt at h
  simp only [] at h
  by_cases h1 : (List.isEmpty (pstrip (lines.getD i [])) ||
      List.isPrefixOf dashesLabel (pstrip (lines.getD i [])) ||
      List.isPrefixOf pageLabel (pstrip (lines.getD i []))) = true
  · rw [if_pos h1] at h
    exact absurd h (by simp)
  · rw [if_neg h1] at h
    cases he : entryFull (pstrip (lines.getD i [])) with
    | none =>
      rw [he] at h
      exact absurd h (by simp)
    | some t =>
      obtain ⟨g0, sp0, c0⟩ := t
      rw [he] at h
      replace h :
          (if List.length (normWS (stripReg (pstrip (removeAll dagger (pstrip c0))))) < 3
            then none
          else if lowerL (pstrip g0) ∈ skipTerms then none
          else if (!(headIsUpper (pstrip g0) &&
              headIsLower (pstrip (removeAll dagger (pstrip sp0))))) = true then none
          else if lowerL (normWS (stripReg (pstrip (removeAll dagger (pstrip c0)))))
              ∈ headerArtifacts then none
          else some (pstrip g0, pstrip (removeAll dagger (pstrip sp0)),
            normWS (stripReg (pstrip (removeAll dagger (pstrip c0)))))) =
            some (g, sp, com) := h
      split_ifs at h with h2 h3 h4 h5
      · have hb : (headIsUpper (pstrip g0) &&
            headIsLower (pstrip (removeAll dagger (pstrip sp0)))) = true := by
          cases hval : headIsUpper (pstrip g0) &&
              headIsLower (pstrip (removeAll dagger (pstrip sp0)))
          · exact absurd (by rw [hval]; rfl) h4
          · rfl
        injection h with h6
        rw [Prod.mk.injEq] at h6
        rw [← h6.1]
        exact (Bool.and_eq_true_iff.mp hb).1

theorem mem_dropWhile_of_mem {p : Char → Bool} {c : Char} {l : Str}
    (hp : p c = false) (hm : c ∈ l) : c ∈ l.dropWhile p := by
  induction l with
  | nil => cases hm
  | cons a t ih =>
    rw [List.dropWhile_cons]
    by_cases ha : p a = true
    · rw [if_pos ha]
      rcases List.mem_cons.mp hm with h | h
      · rw [h] at hp
        rw [hp] at ha
        cases ha
      · exact ih h
    · rw [if_neg ha]
      exact hm

theorem mem_stripWith_of_mem {p : Char → Bool} {c : Char} {l : Str}
    (hp : p c = false) (hm : c ∈ l) : c ∈ stripWith p l := by
  unfold stripWith
  rw [List.mem_reverse]
  apply mem_dropWhile_of_mem hp
  rw [List.mem_reverse]
  exact mem_dropWhile_of_mem hp hm

theorem mem_joinSp_of_mem {c : Char} {w : Str} {L : List Str}
    (hw : w ∈ L) (hc : c ∈ w) : c ∈ joinSp L := by
  induction L with
  | nil => cases hw
  | cons v rest ih =>
    cases rest with
    | nil =>
      rcases List.mem_cons.mp hw with h | h
      · rw [← h]
        exact hc
      · cases h
    | cons v2 rest2 =>
      show c ∈ v ++ ' ' :: joinSp (v2 :: rest2)
      rcases List.mem_cons.mp hw with h | h
      · exact List.mem_append_left _ (h ▸ hc)
      · exact List.mem_append_right _ (List.mem_cons_of_mem _ (ih h))

theorem splitWSAux_mem {c : Char} (hc : isSpaceB c = false) :
    ∀ (l acc : Str), (c ∈ l ∨ c ∈ acc) →
      ∃ w ∈ splitWSAux l acc, c ∈ w := by
  intro l
  induction l with
  | nil =>
    intro acc hm
    rcases hm with h | h
    · cases h
    · have hne : acc.isEmpty = false := by
        cases acc
        · cases h
        · rfl
      rw [splitWSAux, hne]
      exact ⟨acc.reverse, by simp, List.mem_reverse.mpr h⟩
  | cons a t ih =>
    intro acc hm
    rw [splitWSAux]
    by_cases ha : isSpaceB a = true
    · rw [if_pos ha]
      rcases hm with h | h
      · have hct : c ∈ t := by
          rcases List.mem_cons.mp h with h2 | h2
          · rw [h2] at hc
            rw [hc] at ha
            cases ha
          · exact h2
        cases hacc : acc.isEmpty
        · obtain ⟨w, hw, hcw⟩ := ih [] (Or.inl hct)
          exact ⟨w, List.mem_cons_of_mem _ hw, hcw⟩
        · obtain ⟨w, hw, hcw⟩ := ih [] (Or.inl hct)
          rw [if_pos rfl]
          exact ⟨w, hw, hcw⟩
      · have hne : acc.isEmpty = false := by
          cases acc
          · cases h
          · rfl
        rw [hne]
        exact ⟨acc.reverse, List.mem_cons_self _ _, List.mem_reverse.mpr h⟩
    · rw [if_neg ha]
      apply ih (a :: acc)
      rcases hm with h | h
      · rcases List.mem_cons.mp h with h2 | h2
        · exact Or.inr (h2 ▸ List.mem_cons_self a acc)
        · exact Or.inl h2
      · exact Or.inr (List.mem_cons_of_mem _ h)

theorem mem_normWS_of_mem {c : Char} {s : Str}
    (hc : isSpaceB c = false) (hm : c ∈ s) : c ∈ normWS s := by
  obtain ⟨w, hw, hcw⟩ := splitWSAux_mem hc s [] (Or.inl hm)
  exact mem_joinSp_of_mem hw hcw

theorem splitWS_ne_nil_of_mem {c : Char} {s : Str}
    (hc : isSpaceB c = false) (hm : c ∈ s) : splitWS s ≠ [] := by
  obtain ⟨w, hw, _⟩ := splitWSAux_mem hc s [] (Or.inl hm)
  exact List.ne_nil_of_mem hw

theorem mem_clean_name_of_mem {c : Char} {s : Str}
    (hsp : isSpaceB c = false) (hcl : cleanSetB c = false) (hm : c ∈ s) :
    c ∈ clean_name s :=
  mem_stripWith_of_mem hcl (mem_normWS_of_mem hsp hm)

theorem splitWS_clean_name_ne_nil {c : Char} {s : Str}
    (hsp : isSpaceB c = false) (hcl : cleanSetB c = false) (hm : c ∈ s) :
    splitWS (clean_name s) ≠ [] :=
  splitWS_ne_nil_of_mem hsp (mem_clean_name_of_mem hsp hcl hm)

theorem isUpperB_not_space {c : Char} (h : isUpperB c = true) :
    isSpaceB c = false := by
  unfold isUpperB at h
  rcases Bool.and_eq_true_iff.mp h with ⟨h1, h2⟩
  unfold isSpaceB
  have hA : ('A' : Char) ≤ c := of_decide_eq_true h1
  simp only [Bool.or_eq_false_iff, decide_eq_false_iff_not]
  refine ⟨⟨⟨⟨⟨?_, ?_⟩, ?_⟩, ?_⟩, ?_⟩, ?_⟩ <;>
    (intro he; rw [he] at hA; exact absurd hA (by decide))

theorem isUpperB_not_cleanSet {c : Char} (h : isUpperB c = true) :
    cleanSetB c = false := by
  unfold isUpperB at h
  rcases Bool.and_eq_true_iff.mp h with ⟨h1, h2⟩
  unfold cleanSetB
  have hA : ('A' : Char) ≤ c := of_decide_eq_true h1
  simp only [Bool.or_eq_false_iff, decide_eq_false_iff_not]
  refine ⟨⟨⟨⟨?_, ?_⟩, ?_⟩, ?_⟩, ?_⟩ <;>
    (intro he; rw [he] at hA; exact absurd hA (by decide))

theorem headIsUpper_elim {g : Str} (h : headIsUpper g = true) :
    ∃ c t, g = c :: t ∧ isUpperB c = true := by
  cases g with
  | nil => cases h
  | cons c t => exact ⟨c, t, rfl, h⟩

theorem enrich_elim {p q : Plant} (h : enrich p = some q) :
    q.scientific_name = clean_name p.scientific_name ∧
    q.common_name = clean_name p.common_name ∧
    q.habitat = p.habitat ∧
    q.soil_moisture = p.soil_moisture ∧
    ∃ g gs, splitWS (clean_name p.scientific_name) = g :: gs ∧
      q.category = categorizeGenus g := by
  unfold enrich categorize_plant at h
  simp only [] at h
  cases hs : splitWS (clean_name p.scientific_name) with
  | nil =>
    rw [hs] at h
    cases h
  | cons g gs =>
    rw [hs] at h
    replace h :
        some { p with scientific_name := clean_name p.scientific_name,
                      common_name := clean_name p.common_name,
                      category := categorizeGenus g } = some q := h
    rw [← Option.some_injective _ h]
    exact ⟨rfl, rfl, rfl, rfl, g, gs, rfl, rfl⟩

theorem enrich_isSome_of_splitWS {p : Plant}
    (h : splitWS (clean_name p.scientific_name) ≠ []) :
    (enrich p).isSome = true := by
  unfold enrich categorize_plant
  simp only []
  cases hs : splitWS (clean_name p.scientific_name) with
  | nil => exact absurd hs h
  | cons g gs => rfl

theorem enrichAll_total {ps : List Plant}
    (h : ∀ p ∈ ps, (enrich p).isSome = true) :
    ∃ qs, enrichAll ps = some qs := by
  induction ps with
  | nil => exact ⟨[], rfl⟩
  | cons p ps ih =>
    obtain ⟨qs, hqs⟩ := ih (fun x hx => h x (List.mem_cons_of_mem _ hx))
    have hp := h p (List.mem_cons_self _ _)
    rw [Option.isSome_iff_exists] at hp
    obtain ⟨q, hq⟩ := hp
    exact ⟨q :: qs, by rw [enrichAll, hq, hqs]⟩

theorem enrichAll_mem {ps qs : List Plant} (h : enrichAll ps = some qs) :
    ∀ q ∈ qs, ∃ p ∈ ps, enrich p = some q := by
  induction ps generalizing qs with
  | nil =>
    replace h : some [] = some qs := h
    rw [← Option.some_injective _ h]
    intro q hq
    cases hq
  | cons p ps ih =>
    rw [enrichAll] at h
    cases he : enrich p with
    | none =>
      rw [he] at h
      cases h
    | some q0 =>
      rw [he] at h
      cases hr : enrichAll ps with
      | none =>
        rw [hr] at h
        cases h
      | some qs0 =>
        rw [hr] at h
        replace h : some (q0 :: qs0) = some qs := h
        rw [← Option.some_injective _ h]
        intro q hq
        rcases List.mem_cons.mp hq with h2 | h2
        · exact ⟨p, List.mem_cons_self _ _, h2 ▸ he⟩
        · obtain ⟨p2, hp2, hep2⟩ := ih hr q h2
          exact ⟨p2, List.mem_cons_of_mem _ hp2, hep2⟩

theorem parse_sci_shape {content : Str} {p : Plant}
    (h : p ∈ parse_plants content) :
    ∃ c t sp, p.scientific_name = (c :: t) ++ ' ' :: sp ∧ isUpperB c = true := by
  obtain ⟨i, _, he⟩ := mem_parse_plants.mp h
  obtain ⟨g, sp, com, ha, _, _, hp⟩ := emitAt_some_elim he
  obtain ⟨c, t, hg, hu⟩ := headIsUpper_elim (acceptAt_headUpper ha)
  refine ⟨c, t, sp, ?_, hu⟩
  rw [hp]
  rw [(harvest_stable _ _ _).1]
  rw [← hg]
  rfl

theorem enrich_isSome_of_parse {content : Str} {p : Plant}
    (h : p ∈ parse_plants content) : (enrich p).isSome = true := by
  obtain ⟨c, t, sp, hsci, hu⟩ := parse_sci_shape h
  apply enrich_isSome_of_splitWS
  apply splitWS_clean_name_ne_nil (isUpperB_not_space hu) (isUpperB_not_cleanSet hu)
  rw [hsci]
  exact List.mem_append_left _ (List.mem_cons_self _ _)

theorem mem_dedupUpd {key : Str} {p : Plant} {m : List (Str × Plant)}
    {kq : Str × Plant} (h : kq ∈ dedupUpd key p m) :
    kq = (key, p) ∨ kq ∈ m := by
  induction m with
  | nil =>
    rw [dedupUpd] at h
    rcases List.mem_cons.mp h with h2 | h2
    · exact Or.inl h2
    · cases h2
  | cons e rest ih =>
    obtain ⟨k0, p0⟩ := e
    rw [dedupUpd] at h
    by_cases hk : k0 = key
    · rw [if_pos hk] at h
      rcases List.mem_cons.mp h with h2 | h2
      · by_cases hl : p.habitat.length > p0.habitat.length
        · rw [if_pos hl] at h2
          rw [h2, hk]
          exact Or.inl rfl
        · rw [if_neg hl] at h2
          exact Or.inr (h2 ▸ List.mem_cons_self _ _)
      · exact Or.inr (List.mem_cons_of_mem _ h2)
    · rw [if_neg hk] at h
      rcases List.mem_cons.mp h with h2 | h2
      · exact Or.inr (h2 ▸ List.mem_cons_self _ _)
      · rcases ih h2 with h3 | h3
        · exact Or.inl h3
        · exact Or.inr (List.mem_cons_of_mem _ h3)

theorem keys_dedupUpd (key : Str) (p : Plant) (m : List (Str × Plant)) :
    (dedupUpd key p m).map Prod.fst =
      if key ∈ m.map Prod.fst then m.map Prod.fst else m.map Prod.fst ++ [key] := by
  induction m with
  | nil => simp [dedupUpd]
  | cons e rest ih =>
    obtain ⟨k0, p0⟩ := e
    rw [dedupUpd]
    by_cases hk : k0 = key
    · rw [if_pos hk]
      have hmem : key ∈ ((k0, p0) :: rest).map Prod.fst := by
        rw [List.map_cons]
        exact hk ▸ List.mem_cons_self _ _
      rw [if_pos hmem]
      by_cases hl : p.habitat.length > p0.habitat.length
      · rw [if_pos hl, List.map_cons, List.map_cons]
      · rw [if_neg hl]
    · rw [if_neg hk]
      by_cases h2 : key ∈ rest.map Prod.fst
      · have hmem2 : key ∈ ((k0, p0) :: rest).map Prod.fst := by
          rw [List.map_cons]
          exact List.mem_cons_of_mem _ h2
        rw [if_pos hmem2, List.map_cons, List.map_cons, ih, if_pos h2]
      · have hmem2 : key ∉ ((k0, p0) :: rest).map Prod.fst := by
          rw [List.map_cons, List.mem_cons]
          rintro (hx | hx)
          · exact hk hx.symm
          · exact h2 hx
        rw [if_neg hmem2, List.map_cons, List.map_cons, ih, if_neg h2,
          List.cons_append]

theorem nodup_keys_dedupUpd {key : Str} {p : Plant} {m : List (Str × Plant)}
    (h : (m.map Prod.fst).Nodup) : ((dedupUpd key p m).map Prod.fst).Nodup := by
  rw [keys_dedupUpd]
  by_cases hk : key ∈ m.map Prod.fst
  · rw [if_pos hk]
    exact h
  · rw [if_neg hk]
    rw [List.nodup_append]
    exact ⟨h, List.nodup_singleton key, by
      intro a ha hb
      rw [List.mem_singleton] at hb
      exact hk (hb ▸ ha)⟩

theorem dedupFold_pairs (Q : Str × Plant → Prop) :
    ∀ (ps : List Plant) (m : List (Str × Plant)),
      (∀ kq ∈ m, Q kq) →
      (∀ p ∈ ps, Q (lowerL p.scientific_name, p)) →
      ∀ kq ∈ ps.foldl (fun acc p => dedupUpd (lowerL p.scientific_name) p acc) m, Q kq := by
  intro ps
  induction ps with
  | nil =>
    intro m hm _ kq hkq
    exact hm kq hkq
  | cons p ps ih =>
    intro m hm hps kq hkq
    rw [List.foldl_cons] at hkq
    refine ih (dedupUpd (lowerL p.scientific_name) p m) ?_ ?_ kq hkq
    · intro kq2 hkq2
      rcases mem_dedupUpd hkq2 with h2 | h2
      · rw [h2]
        exact hps p (List.mem_cons_self _ _)
      · exact hm kq2 h2
    · intro p2 hp2
      exact hps p2 (List.mem_cons_of_mem _ hp2)

theorem dedupFold_nodup_keys :
    ∀ (ps : List Plant) (m : List (Str × Plant)),
      (m.map Prod.fst).Nodup →
      ((ps.foldl (fun acc p => dedupUpd (lowerL p.scientific_name) p acc) m).map
        Prod.fst).Nodup := by
  intro ps
  induction ps with
  | nil =>
    intro m hm
    exact hm
  | cons p ps ih =>
    intro m hm
    rw [List.foldl_cons]
    exact ih _ (nodup_keys_dedupUpd hm)

theorem dedupAll_nodup_keys (ps : List Plant) :
    ((dedupAll ps).map Prod.fst).Nodup :=
  dedupFold_nodup_keys ps [] List.nodup_nil

theorem dedupAll_pairs (Q : Str × Plant → Prop) (ps : List Plant)
    (hps : ∀ p ∈ ps, Q (lowerL p.scientific_name, p)) :
    ∀ kq ∈ dedupAll ps, Q kq :=
  dedupFold_pairs Q ps [] (fun _ h => absurd h (List.not_mem_nil _)) hps

theorem pipeline_total (content : Str) :
    ∃ qs, enrichAll (parse_plants content) = some qs :=
  enrichAll_total (fun _ hp => enrich_isSome_of_parse hp)

theorem mainOut_eq_of {content : Str} {qs : List Plant}
    (h : enrichAll (parse_plants content) = some qs) :
    mainOut content = sortPlants ((dedupAll qs).map Prod.snd) := by
  unfold mainOut main_pipeline
  rw [h]
  rfl

theorem mem_sortPlants {r : Plant} {l : List Plant} :
    r ∈ sortPlants l ↔ r ∈ l :=
  (List.perm_insertionSort plantLe l).mem_iff

theorem mainOut_provenance {content : Str} {r : Plant}
    (h : r ∈ mainOut content) :
    ∃ p ∈ parse_plants content, enrich p = some r := by
  obtain ⟨qs, hqs⟩ := pipeline_total content
  rw [mainOut_eq_of hqs, mem_sortPlants] at h
  obtain ⟨kq, hkq, hsnd⟩ := List.mem_map.mp h
  have hval : kq.2 ∈ qs :=
    dedupAll_pairs (fun x => x.2 ∈ qs) qs (fun p hp => hp) kq hkq
  obtain ⟨p, hp, hep⟩ := enrichAll_mem hqs kq.2 hval
  exact ⟨p, hp, by rw [hep, hsnd]⟩

theorem categorizeGenus_mem_labels (g : Str) :
    categorizeGenus g ∈ categoryLabels := by
  unfold categorizeGenus categoryLabels
  split_ifs <;> simp

theorem categorizeGenus_default {g : Str}
    (h1 : g ∉ fern_genera) (h2 : g ∉ graminoid_genera) (h3 : g ∉ shrub_genera)
    (h4 : g ∉ tree_genera) (h5 : g ∉ vine_genera) :
    categorizeGenus g = forbStr := by
  unfold categorizeGenus
  rw [if_neg h1, if_neg h2, if_neg h3, if_neg h4, if_neg h5]

/-! ### Claim theorems -/

/-- Claim C9: the extractor is deterministic — running the full extraction
(parse, categorize, dedup/merge, sort) twice on the same document text
yields identical record lists. -/
theorem C9_deterministic (content : Str) :
    (runTwice content).1 = (runTwice content).2 := rfl

/-- Claim C6: for every input document string the extraction core (parsing,
categorization, and merge) completes without raising any exception and
returns a (possibly empty) list of records.  The only fallible operation in
the core, the `scientific_name.split()[0]` indexing inside
`categorize_plant`, is modelled by `Option`; `isSome` states that the error
case is unreachable for every document. -/
theorem C6_no_exceptions (content : Str) :
    (main_pipeline content).isSome = true := by
  obtain ⟨qs, hqs⟩ := pipeline_total content
  unfold main_pipeline
  rw [hqs]
  rfl

/-- Claim C4: for every input document the final output list is sorted
ascending (monotonically non-decreasing) by `scientific_name` under
ordinal, case-sensitive comparison on the stored value. -/
theorem C4_sorted (content : Str) :
    List.Pairwise
      (fun a b : Plant => lexLe a.scientific_name b.scientific_name = true)
      (mainOut content) := by
  obtain ⟨qs, hqs⟩ := pipeline_total content
  rw [mainOut_eq_of hqs]
  exact List.sorted_insertionSort plantLe ((dedupAll qs).map Prod.snd)

/-- Claim C3: for every input document, no two records in the final output
collection have `scientific_name` strings that are equal after
lowercasing. -/
theorem C3_unique_keys (content : Str) :
    List.Pairwise
      (fun a b : Plant => lowerL a.scientific_name ≠ lowerL b.scientific_name)
      (mainOut content) := by
  obtain ⟨qs, hqs⟩ := pipeline_total content
  rw [mainOut_eq_of hqs]
  have hkey : ∀ kq ∈ dedupAll qs, kq.1 = lowerL kq.2.scientific_name :=
    dedupAll_pairs (fun kq => kq.1 = lowerL kq.2.scientific_name) qs
      (fun _ _ => rfl)
  have hnd : ((dedupAll qs).map Prod.fst).Nodup := dedupAll_nodup_keys qs
  have hpair1 :
      List.Pairwise (fun x y : Str × Plant => x.1 ≠ y.1) (dedupAll qs) :=
    List.pairwise_map.mp hnd
  have hpair2 : List.Pairwise
      (fun x y : Str × Plant =>
        lowerL x.2.scientific_name ≠ lowerL y.2.scientific_name)
      (dedupAll qs) := by
    refine hpair1.imp_of_mem ?_
    intro a b ha hb hne
    rw [← hkey a ha, ← hkey b hb]
    exact hne
  have hpair3 : List.Pairwise
      (fun a b : Plant => lowerL a.scientific_name ≠ lowerL b.scientific_name)
      ((dedupAll qs).map Prod.snd) := List.pairwise_map.mpr hpair2
  have hsymm : ∀ {a b : Plant},
      lowerL a.scientific_name ≠ lowerL b.scientific_name →
      lowerL b.scientific_name ≠ lowerL a.scientific_name :=
    fun h => Ne.symm h
  exact ((List.perm_insertionSort plantLe _).pairwise_iff hsymm).mpr hpair3

/-- Claim C10: every record produced by the extractor carries a
`soil_moisture` field whose value is the empty string in every output — it
is initialized empty and no harvesting or enrichment step ever assigns
it. -/
theorem C10_soil_moisture (content : Str) (r : Plant)
    (h : r ∈ mainOut content) : r.soil_moisture = [] := by
  obtain ⟨p, hp, hep⟩ := mainOut_provenance h
  obtain ⟨i, _, he⟩ := mem_parse_plants.mp hp
  obtain ⟨g, sp, com, ha, _, _, hpe⟩ := emitAt_some_elim he
  rw [(enrich_elim hep).2.2.2.1, hpe, (harvest_stable _ _ _).2.2.2]
  rfl

theorem C10_witness :
    specRecord ∈ mainOut specDoc ∧ specRecord.soil_moisture = [] :=
  ⟨by decide, C10_soil_moisture specDoc specRecord (by decide)⟩

/-- Claim C7: the categorizer is a pure function of the genus (first
whitespace-delimited token of the scientific name): every output record's
`category` is one of Fern, Graminoid, Shrub, Tree, Vine, Forb, and a record
whose genus is absent from all five explicit genus sets is classified
Forb. -/
theorem C7_category (content : Str) (r : Plant) (h : r ∈ mainOut content) :
    r.category ∈ categoryLabels ∧
    (∀ g gs, splitWS r.scientific_name = g :: gs →
      g ∉ fern_genera → g ∉ graminoid_genera → g ∉ shrub_genera →
      g ∉ tree_genera → g ∉ vine_genera → r.category = forbStr) := by
  obtain ⟨p, hp, hep⟩ := mainOut_provenance h
  obtain ⟨hsci, hcom, hhab, hsoil, g0, gs0, hsplit, hcat⟩ := enrich_elim hep
  constructor
  · rw [hcat]
    exact categorizeGenus_mem_labels g0
  · intro g gs hgg h1 h2 h3 h4 h5
    rw [hsci, hsplit] at hgg
    injection hgg with e1 e2
    rw [hcat, e1]
    exact categorizeGenus_default h1 h2 h3 h4 h5

theorem C7_witness :
    specRecord ∈ mainOut specDoc ∧
    (specRecord.category ∈ categoryLabels ∧
      (∀ g gs, splitWS specRecord.scientific_name = g :: gs →
        g ∉ fern_genera → g ∉ graminoid_genera → g ∉ shrub_genera →
        g ∉ tree_genera → g ∉ vine_genera → specRecord.category = forbStr)) :=
  ⟨by decide, C7_category specDoc specRecord (by decide)⟩

/-- Claim C8: the five fixed genus sets of the categorizer are pairwise
disjoint — no genus string appears in more than one of the five sets. -/
theorem C8_disjoint :
    (∀ g ∈ fern_genera, g ∉ graminoid_genera) ∧
    (∀ g ∈ fern_genera, g ∉ shrub_genera) ∧
    (∀ g ∈ fern_genera, g ∉ tree_genera) ∧
    (∀ g ∈ fern_genera, g ∉ vine_genera) ∧
    (∀ g ∈ graminoid_genera, g ∉ shrub_genera) ∧
    (∀ g ∈ graminoid_genera, g ∉ tree_genera) ∧
    (∀ g ∈ graminoid_genera, g ∉ vine_genera) ∧
    (∀ g ∈ shrub_genera, g ∉ tree_genera) ∧
    (∀ g ∈ shrub_genera, g ∉ vine_genera) ∧
    (∀ g ∈ tree_genera, g ∉ vine_genera) := by
  decide

theorem C8_witness :
    "Adiantum".toList ∈ fern_genera ∧ "Adiantum".toList ∉ graminoid_genera :=
  ⟨by decide, C8_disjoint.1 ("Adiantum".toList) (by decide)⟩

theorem isPrefixOf_iff_exists {p l : Str} :
    p.isPrefixOf l = true ↔ ∃ t, l = p ++ t := by
  induction p generalizing l with
  | nil =>
    simp [List.isPrefixOf]
  | cons a as ih =>
    cases l with
    | nil =>
      constructor
      · intro h
        cases h
      · rintro ⟨t, ht⟩
        cases ht
    | cons b bs =>
      show (a == b && as.isPrefixOf bs) = true ↔ _
      rw [Bool.and_eq_true_iff, beq_iff_eq, ih]
      constructor
      · rintro ⟨hab, t, ht⟩
        exact ⟨t, by rw [hab, ht]; rfl⟩
      · rintro ⟨t, ht⟩
        injection ht with h1 h2
        exact ⟨h1.symm, t, h2⟩

theorem occursAtP_zero {pat s : Str} :
    occursAtP pat s 0 ↔ ∃ t, s = pat ++ t := by
  unfold occursAtP
  constructor
  · rintro ⟨pre, post, hlen, heq⟩
    rw [List.length_eq_zero] at hlen
    rw [hlen] at heq
    exact ⟨post, heq⟩
  · rintro ⟨t, ht⟩
    exact ⟨[], t, rfl, ht⟩

theorem occursAtP_cons_succ {pat s : Str} {c : Char} {j : Nat} :
    occursAtP pat (c :: s) (j + 1) ↔ occursAtP pat s j := by
  unfold occursAtP
  constructor
  · rintro ⟨pre, post, hlen, heq⟩
    cases pre with
    | nil => cases hlen
    | cons d pre2 =>
      injection heq with h1 h2
      exact ⟨pre2, post, by simpa using hlen, h2⟩
  · rintro ⟨pre, post, hlen, heq⟩
    exact ⟨c :: pre, post, by simp [hlen], by rw [heq]; rfl⟩

theorem occursAtP_le_length {pat s : Str} {i : Nat}
    (h : occursAtP pat s i) : i ≤ s.length := by
  obtain ⟨pre, post, hlen, heq⟩ := h
  rw [heq]
  simp [← hlen]

theorem subFindAux_some {pat : Str} :
    ∀ {l : Str} {i0 r : Nat}, subFindAux pat l i0 = some r →
      ∃ j, r = i0 + j ∧ occursAtP pat l j ∧ ∀ j' < j, ¬ occursAtP pat l j' := by
  intro l
  induction l with
  | nil =>
    intro i0 r h
    rw [subFindAux] at h
    by_cases hp : pat.isEmpty = true
    · rw [if_pos hp] at h
      replace h := Option.some_injective _ h
      have hpat : pat = [] := by
        cases pat
        · rfl
        · cases hp
      refine ⟨0, by omega, ⟨[], [], rfl, by rw [hpat]; rfl⟩, ?_⟩
      intro j' hj'
      omega
    · rw [if_neg hp] at h
      cases h
  | cons c t ih =>
    intro i0 r h
    rw [subFindAux] at h
    by_cases hp : pat.isPrefixOf (c :: t) = true
    · rw [if_pos hp] at h
      replace h := Option.some_injective _ h
      obtain ⟨tl, htl⟩ := isPrefixOf_iff_exists.mp hp
      refine ⟨0, by omega, occursAtP_zero.mpr ⟨tl, htl⟩, ?_⟩
      intro j' hj'
      omega
    · rw [if_neg hp] at h
      obtain ⟨j, hr, hocc, hmin⟩ := ih h
      refine ⟨j + 1, by omega, occursAtP_cons_succ.mpr hocc, ?_⟩
      intro j' hj'
      cases j' with
      | zero =>
        intro hc
        obtain ⟨tl, htl⟩ := occursAtP_zero.mp hc
        exact hp (isPrefixOf_iff_exists.mpr ⟨tl, htl⟩)
      | succ j2 =>
        intro hc
        exact hmin j2 (by omega) (occursAtP_cons_succ.mp hc)

theorem subFindAux_none {pat : Str} :
    ∀ {l : Str} {i0 : Nat}, subFindAux pat l i0 = none →
      ∀ j, ¬ occursAtP pat l j := by
  intro l
  induction l with
  | nil =>
    intro i0 h j hc
    rw [subFindAux] at h
    by_cases hp : pat.isEmpty = true
    · rw [if_pos hp] at h
      cases h
    · rw [if_neg hp] at h
      obtain ⟨pre, post, hlen, heq⟩ := hc
      have : pat = [] := by
        cases pre
        · cases pat
          · rfl
          · cases heq
        · cases heq
      rw [this] at hp
      exact hp rfl
  | cons c t ih =>
    intro i0 h j hc
    rw [subFindAux] at h
    by_cases hp : pat.isPrefixOf (c :: t) = true
    · rw [if_pos hp] at h
      cases h
    · rw [if_neg hp] at h
      cases j with
      | zero =>
        obtain ⟨tl, htl⟩ := occursAtP_zero.mp hc
        exact hp (isPrefixOf_iff_exists.mpr ⟨tl, htl⟩)
      | succ j2 =>
        exact ih h j2 (occursAtP_cons_succ.mp hc)

theorem subFind_some {pat s : Str} {r : Nat} (h : subFind pat s = some r) :
    leastOcc pat s r := by
  obtain ⟨j, hr, hocc, hmin⟩ := subFindAux_some h
  have : r = j := by omega
  rw [this]
  exact ⟨hocc, fun i' hi' => hmin i' hi'⟩

theorem subFind_none {pat s : Str} (h : subFind pat s = none) : noOcc pat s :=
  fun j => subFindAux_none h j

theorem occursAtP_drop {pat s : Str} {start j : Nat} (hs : start ≤ s.length) :
    occursAtP pat (s.drop start) j ↔ occursAtP pat s (start + j) := by
  constructor
  · rintro ⟨pre, post, hlen, heq⟩
    refine ⟨s.take start ++ pre, post, ?_, ?_⟩
    · rw [List.length_append, List.length_take]
      omega
    · conv_lhs => rw [← List.take_append_drop start s]
      rw [heq, List.append_assoc]
  · rintro ⟨pre, post, hlen, heq⟩
    refine ⟨pre.drop start, post, ?_, ?_⟩
    · rw [List.length_drop]
      omega
    · rw [heq, List.drop_append_of_le_length (show start ≤ pre.length by omega)]

theorem sectionStart_spec (content : Str) :
    leastOcc pageMarker content (sectionStart content) ∨
    (noOcc pageMarker content ∧
      leastOcc fernsHeader content (sectionStart content)) ∨
    (noOcc pageMarker content ∧ noOcc fernsHeader content ∧
      sectionStart content = 0) := by
  unfold sectionStart
  cases h1 : subFind pageMarker content with
  | some i =>
    exact Or.inl (subFind_some h1)
  | none =>
    cases h2 : subFind fernsHeader content with
    | some i =>
      exact Or.inr (Or.inl ⟨subFind_none h1, subFind_some h2⟩)
    | none =>
      exact Or.inr (Or.inr ⟨subFind_none h1, subFind_none h2, rfl⟩)

theorem sectionStart_le (content : Str) :
    sectionStart content ≤ content.length := by
  rcases sectionStart_spec content with h | h | h
  · exact occursAtP_le_length h.1
  · exact occursAtP_le_length h.2.1
  · rw [h.2.2]
    exact Nat.zero_le _

theorem sectionStop_spec (content : Str) {start : Nat}
    (hs : start ≤ content.length) :
    start ≤ sectionStop content start ∧
    sectionStop content start ≤ content.length ∧
    ((occursAtP glossaryTok content (sectionStop content start) ∧
        ∀ e', start ≤ e' → e' < sectionStop content start →
          ¬ occursAtP glossaryTok content e') ∨
      ((∀ e', start ≤ e' → ¬ occursAtP glossaryTok content e') ∧
        sectionStop content start = content.length)) := by
  unfold sectionStop subFindFrom
  cases h1 : subFind glossaryTok (content.drop start) with
  | some f =>
    simp only [Option.map_some']
    obtain ⟨hocc, hmin⟩ := subFind_some h1
    have hocc2 : occursAtP glossaryTok content (start + f) :=
      (occursAtP_drop hs).mp hocc
    have hle : start + f ≤ content.length := occursAtP_le_length hocc2
    refine ⟨by omega, by omega, Or.inl ⟨by rw [Nat.add_comm f start]; exact hocc2, ?_⟩⟩
    intro e' he1 he2
    intro hc
    have : e' = start + (e' - start) := by omega
    rw [this] at hc
    exact hmin (e' - start) (by omega) ((occursAtP_drop hs).mpr hc)
  | none =>
    simp only [Option.map_none']
    have hno := subFind_none h1
    refine ⟨hs, le_refl _, Or.inr ⟨?_, trivial⟩⟩
    intro e' he1 hc
    have : e' = start + (e' - start) := by omega
    rw [this] at hc
    exact hno (e' - start) ((occursAtP_drop hs).mpr hc)

/-- Claim C5: for every input document text the section locator returns the
substring from the first occurrence of the fixed page-marker string
(falling back to the fixed section-header string if the marker is absent,
and to offset 0 if both are absent) up to the first occurrence of the
literal token "Glossary" at or after the start offset (falling back to
document end if absent); it is a total function and always returns a valid
slice of the document. -/
theorem C5_section_locator (content : Str) :
    ∃ s e, s ≤ e ∧ e ≤ content.length ∧
      locateSection content = (content.drop s).take (e - s) ∧
      (leastOcc pageMarker content s ∨
        (noOcc pageMarker content ∧ leastOcc fernsHeader content s) ∨
        (noOcc pageMarker content ∧ noOcc fernsHeader content ∧ s = 0)) ∧
      ((occursAtP glossaryTok content e ∧
          ∀ e', s ≤ e' → e' < e → ¬ occursAtP glossaryTok content e') ∨
        ((∀ e', s ≤ e' → ¬ occursAtP glossaryTok content e') ∧
          e = content.length)) := by
  obtain ⟨h1, h2, h3⟩ := sectionStop_spec content (sectionStart_le content)
  exact ⟨sectionStart content, sectionStop content (sectionStart content),
    h1, h2, rfl, sectionStart_spec content, h3⟩

theorem getD_take {l : List Str} {n m : Nat} (h : m < n) :
    (l.take n).getD m [] = l.getD m [] := by
  rw [List.getD_eq_getElem?_getD, List.getD_eq_getElem?_getD,
    List.getElem?_take_of_lt h]

theorem fcContAux_take {lines : List Str} {k : Nat} (hk : k < lines.length)
    (hshape : entryShape (pstrip (lines.getD k [])) = true) {j : Nat} :
    ∀ (fuel m : Nat) (ft : Str), m ≤ k →
      fcContAux lines (min (j + 4) lines.length) fuel m ft =
        fcContAux (lines.take (k + 1)) (min (j + 4) (k + 1)) fuel m ft := by
  intro fuel
  induction fuel with
  | zero =>
    intro m ft _
    rfl
  | succ fuel ih =>
    intro m ft hm
    rw [fcContAux, fcContAux]
    simp only []
    by_cases hc : m < min (j + 4) lines.length
    · have hc2 : m < min (j + 4) (k + 1) := by omega
      rw [if_pos hc, if_pos hc2]
      have hline : (lines.take (k + 1)).getD m [] = lines.getD m [] :=
        getD_take (by omega)
      rw [hline]
      by_cases hA : (!(pstrip (lines.getD m [])).isEmpty &&
          !(fcSentinels.any fun x => x.isPrefixOf (pstrip (lines.getD m [])))) = true
      · rw [if_pos hA, if_pos hA]
        by_cases hS : entryShape (pstrip (lines.getD m [])) = true
        · rw [if_pos hS, if_pos hS]
        · rw [if_neg hS, if_neg hS]
          have hmk : m < k := by
            by_contra hno
            have : m = k := by omega
            rw [this] at hS
            exact hS hshape
          exact ih (m + 1) _ (by omega)
      · rw [if_neg hA, if_neg hA]
    · have hc2 : ¬ m < min (j + 4) (k + 1) := by omega
      rw [if_neg hc, if_neg hc2]

theorem applyFields_take {lines : List Str} {k : Nat} (hk : k < lines.length)
    (hshape : entryShape (pstrip (lines.getD k [])) = true)
    {j : Nat} {nl : Str} {p : Plant}
    (hcase : j < k ∨ containsSub fcLabel nl = false) :
    applyFields lines j nl p = applyFields (lines.take (k + 1)) j nl p := by
  unfold applyFields
  split_ifs with h1 h2 h3 h4 h5 h6 <;> try rfl
  rcases hcase with hjk | hfc
  · unfold fcCont
    simp only []
    have hlen : (lines.take (k + 1)).length = k + 1 := by
      rw [List.length_take]
      omega
    rw [hlen]
    rw [fcContAux_take hk hshape 3 (j + 1) _ (by omega)]
  · exact absurd h3 (by rw [hfc]; intro hx; cases hx)

theorem harvestAux_take {lines : List Str} {i k : Nat}
    (h1 : i + 3 < k) (h2 : k < min (i + 60) lines.length)
    (hshape : entryShape (pstrip (lines.getD k [])) = true)
    (hfc : containsSub fcLabel (pstrip (lines.getD k [])) = false) :
    ∀ (fuel j : Nat) (p : Plant), j ≤ k →
      harvestAux lines i fuel j p = harvestAux (lines.take (k + 1)) i fuel j p := by
  have hklen : k < lines.length := by omega
  intro fuel
  induction fuel with
  | zero =>
    intro j p _
    rfl
  | succ fuel ih =>
    intro j p hj
    rw [harvestAux, harvestAux]
    simp only []
    have hlen_take : (lines.take (k + 1)).length = k + 1 := by
      rw [List.length_take]
      omega
    have hg1 : j < min (i + 60) lines.length := by omega
    have hg2 : j < min (i + 60) (lines.take (k + 1)).length := by
      rw [hlen_take]
      omega
    rw [if_pos hg1, if_pos hg2]
    have hline : (lines.take (k + 1)).getD j [] = lines.getD j [] :=
      getD_take (by omega)
    rw [hline]
    have hap : applyFields lines j (pstrip (lines.getD j [])) p =
        applyFields (lines.take (k + 1)) j (pstrip (lines.getD j [])) p := by
      apply applyFields_take hklen hshape
      by_cases hjk : j < k
      · exact Or.inl hjk
      · have hje : j = k := by omega
        rw [hje]
        exact Or.inr hfc
    rw [← hap]
    by_cases hb : (decide (j > i + 3) && entryShape (pstrip (lines.getD j []))) = true
    · rw [if_pos hb, if_pos hb]
    · rw [if_neg hb, if_neg hb]
      have hjk : j < k := by
        by_contra hno
        have hje : j = k := by omega
        apply hb
        rw [hje]
        rw [Bool.and_eq_true_iff]
        exact ⟨decide_eq_true (by omega), hshape⟩
      exact ih (j + 1) _ (by omega)

theorem buildAt_elim {lines : List Str} {i : Nat} {p : Plant}
    (h : buildAt lines i = some p) :
    ∃ g sp com, acceptAt lines i = some (g, sp, com) ∧
      p = harvest lines i (mkPlant g sp com) := by
  unfold buildAt at h
  cases ha : acceptAt lines i with
  | none =>
    rw [ha] at h
    cases h
  | some t =>
    obtain ⟨g, sp, com⟩ := t
    rw [ha] at h
    replace h : some (harvest lines i (mkPlant g sp com)) = some p := h
    exact ⟨g, sp, com, rfl, (Option.some_injective _ h).symm⟩

theorem emitAt_key {lines : List Str} {i : Nat} {q : Plant}
    (he : emitAt lines i = some q) :
    rawKeyAt lines i = some (lowerL q.scientific_name) := by
  obtain ⟨g, sp, com, ha, hraw, hns, hq⟩ := emitAt_some_elim he
  rw [hq, (harvest_stable _ _ _).1]
  exact hraw

/-- Claim C2 counterexample: in `c2doc`, candidate B's entry-start line is 1
line after candidate A (within 3 lines); the lookahead does not stop there
(the break requires `j > i + 3`), so A's harvested habitat is exactly the
text of B's `Habitat:` field line — text belonging to B. -/
theorem C2_counterexample :
    rawKeyAt c2lines 0 = some (lowerL ("Aaaa bbbb".toList)) ∧
    rawKeyAt c2lines 1 = some (lowerL ("Cccc dddd".toList)) ∧
    entryShape (pstrip (c2lines.getD 1 [])) = true ∧
    (mainOut c2doc).map (fun r => (r.scientific_name, r.habitat)) =
      [("Aaaa bbbb".toList, "BELONGSTOB".toList),
       ("Cccc dddd".toList, "BELONGSTOB".toList)] := by
  decide

/-- Claim C2 (amended): the lookahead stops only at an entry-start-shaped
line strictly more than 3 lines after the candidate.  When such a line
exists at index `k` inside the 60-line window (and the line does not itself
carry a `Form/Color:` label, whose continuation loop reads up to 3 further
lines), the whole harvest for the candidate at `i` is determined by the
lines up to and including `k`: every line after the next entry's start line
is irrelevant to the harvested fields.  When the next entry starts within 3
lines, no such stop happens and its field lines can bleed into the
candidate (see the counterexample). -/
theorem C2_harvest_stop (lines : List Str) (i k : Nat) (p : Plant)
    (h1 : i + 3 < k) (h2 : k < min (i + 60) lines.length)
    (hshape : entryShape (pstrip (lines.getD k [])) = true)
    (hfc : containsSub fcLabel (pstrip (lines.getD k [])) = false) :
    harvest lines i p = harvest (lines.take (k + 1)) i p :=
  harvestAux_take h1 h2 hshape hfc 60 (i + 1) p (by omega)

theorem C2_witness :
    (0 + 3 < 5 ∧ 5 < min (0 + 60) c2wlines.length ∧
      entryShape (pstrip (c2wlines.getD 5 [])) = true ∧
      containsSub fcLabel (pstrip (c2wlines.getD 5 [])) = false) ∧
    harvest c2wlines 0 (mkPlant "Aaaa".toList "bbbb".toList "Plant One".toList) =
      harvest (c2wlines.take 6) 0
        (mkPlant "Aaaa".toList "bbbb".toList "Plant One".toList) :=
  ⟨⟨by decide, by decide, by decide, by decide⟩,
    C2_harvest_stop c2wlines 0 5 _ (by decide) (by decide) (by decide) (by decide)⟩

/-- Claim C1 counterexample: in `c1doc` the candidates at lines 0 and 4
share the same raw key; the later candidate's habitat text has length 30,
the first-seen candidate's has length 12, yet the single output record for
that name keeps the length-12 habitat — the longer habitat does not win. -/
theorem C1_counterexample :
    rawKeyAt c1lines 0 = some c1key ∧
    rawKeyAt c1lines 4 = some c1key ∧
    (buildAt c1lines 4).map Plant.habitat =
      some ("ABCDEFGHIJKLMNOPQRSTUVWXYZ1234".toList) ∧
    ("ABCDEFGHIJKLMNOPQRSTUVWXYZ1234".toList).length = 30 ∧
    (mainOut c1doc).map Plant.habitat = ["TWELVECHARS!".toList] ∧
    ("TWELVECHARS!".toList).length = 12 := by
  decide

/-- Claim C1 (amended): when two candidate entries share a
case-insensitively-equal extracted scientific name, the parse stage keeps
only the first-seen candidate's record — its habitat is retained regardless
of length, because the `seen` set drops the later duplicate before it can
reach the merge, and the merge step only chooses among the records the
parse stage emitted (every final record is the enrichment of some parse
record). -/
theorem C1_first_seen (content : Str) (i : Nat) (k : Str) (p : Plant)
    (hk : rawKeyAt (splitLines (locateSection content)) i = some k)
    (hfirst : ∀ j ∈ idxFrom 0 i,
      rawKeyAt (splitLines (locateSection content)) j ≠ some k)
    (hi : i < (splitLines (locateSection content)).length)
    (hp : buildAt (splitLines (locateSection content)) i = some p) :
    p ∈ parse_plants content ∧
    (∀ q ∈ parse_plants content, lowerL q.scientific_name = k → q = p) ∧
    (∀ r ∈ mainOut content, ∃ q ∈ parse_plants content, enrich q = some r) := by
  obtain ⟨g, sp, com, ha, hpb⟩ := buildAt_elim hp
  have hkval : k = lowerL (g ++ ' ' :: sp) := by
    unfold rawKeyAt at hk
    rw [ha] at hk
    replace hk : some (lowerL (g ++ ' ' :: sp)) = some k := hk
    exact (Option.some_injective _ hk).symm
  have hnotseen : lowerL (g ++ ' ' :: sp) ∉
      seenUpTo (splitLines (locateSection content)) i := by
    intro hmem
    obtain ⟨j, hj, hrj⟩ := mem_seenUpTo.mp hmem
    exact hfirst j (mem_idxFrom.mpr ⟨Nat.zero_le j, by omega⟩) (hkval ▸ hrj)
  have hemit : emitAt (splitLines (locateSection content)) i = some p := by
    unfold emitAt
    rw [ha]
    show (if lowerL (g ++ ' ' :: sp) ∈
          seenUpTo (splitLines (locateSection content)) i then none
        else some (harvest (splitLines (locateSection content)) i
          (mkPlant g sp com))) = some p
    rw [if_neg hnotseen, hpb]
  refine ⟨mem_parse_plants.mpr ⟨i, hi, hemit⟩, ?_, fun r hr => mainOut_provenance hr⟩
  intro q hq hkey
  obtain ⟨i2, hi2, he2⟩ := mem_parse_plants.mp hq
  have hraw2 : rawKeyAt (splitLines (locateSection content)) i2 = some k := by
    rw [emitAt_key he2, hkey]
  rcases Nat.lt_trichotomy i2 i with hlt | heq | hgt
  · exact absurd hraw2 (hfirst i2 (mem_idxFrom.mpr ⟨Nat.zero_le i2, by omega⟩))
  · rw [heq] at he2
    rw [he2] at hemit
    exact Option.some_injective _ hemit
  · obtain ⟨g2, sp2, com2, ha2, hraw2b, hns2, hq2⟩ := emitAt_some_elim he2
    exfalso
    apply hns2
    apply mem_seenUpTo.mpr
    refine ⟨i, hgt, ?_⟩
    have : lowerL (g2 ++ ' ' :: sp2) = k := by
      rw [hraw2b] at hraw2
      exact Option.some_injective _ hraw2
    rw [this, hk]

theorem C1_witness :
    (rawKeyAt (splitLines (locateSection c1doc)) 0 = some c1key ∧
      (∀ j ∈ idxFrom 0 0,
        rawKeyAt (splitLines (locateSection c1doc)) j ≠ some c1key) ∧
      0 < (splitLines (locateSection c1doc)).length ∧
      buildAt (splitLines (locateSection c1doc)) 0 = some c1raw) ∧
    (c1raw ∈ parse_plants c1doc ∧
      (∀ q ∈ parse_plants c1doc, lowerL q.scientific_name = c1key → q = c1raw) ∧
      (∀ r ∈ mainOut c1doc, ∃ q ∈ parse_plants c1doc, enrich q = some r)) :=
  ⟨⟨by decide, by decide, by decide, by decide⟩,
    C1_first_seen c1doc 0 c1key c1raw (by decide) (by decide) (by decide)
      (by decide)⟩
